import Mathlib

/-!
Verification of the `rate` package: a per-key sliding-window rate limiter.

The limiter actor owns a map from task name to a "committed-until" timestamp.
`Schedule(task, slice)` clamps the stored mark to `now - quantum`, adds the
slice, and grants (updating the map) exactly when the projected mark does not
exceed `now`.  A background sweeper periodically examines a bounded number of
map entries and deletes those whose clamped value differs from the stored one.

Times and durations are modelled as `Int` (nanoseconds); the Go zero
`time.Time` returned by a map lookup on a missing key is the integer `0`.
-/

namespace Rate

/-- Sweep batch cap, from the source constant `maxSweep = 10`. -/
def maxSweep : Nat := 10

/-- One second, from Go `time.Second` in nanoseconds. -/
def second : Int := 1000000000

/-- The ledger: the limiter actor's map from task name to committed-until
timestamp.  `none` models absence of an entry. -/
def Ledger := String → Option Int

/-- The empty ledger, the actor's initial map. -/
def emptyLedger : Ledger := fun _ => none

/-- Embedding of `(*limiter).floor`: `mark` clamped to `[now-quantum, +inf)`.
Go: `if t := now.Add(-l.quantum); !mark.After(t) { return t }; return mark`. -/
def floorT (quantum mark now : Int) : Int :=
  if mark ≤ now - quantum then now - quantum else mark

/-- Embedding of one `Schedule` request as processed by `(*limiter).run`:
`then := floor(m[task], now) + slice; delta := then - now`; the reply is
`delta`, and when `delta ≤ 0` the map entry for `task` is set to `then`.
A lookup on a missing key yields the Go zero time, here `0`. -/
def schedule (quantum : Int) (m : Ledger) (task : String) (slice now : Int) :
    Int × Ledger :=
  let thenT := floorT quantum ((m task).getD 0) now + slice
  let delta := thenT - now
  if delta ≤ 0 then (delta, fun k => if k = task then some thenT else m k)
  else (delta, m)

/-- The ledger after `n` consecutive `schedule` calls for the same task,
slice and time (no wall time elapsing between calls). -/
def scheduleN (quantum : Int) (m : Ledger) (task : String) (slice now : Int) :
    Nat → Ledger
  | 0 => m
  | n + 1 => (schedule quantum (scheduleN quantum m task slice now n) task slice now).2

/-- Embedding of `Allow`: grants a fixed one-second slice;
Go: `return l.Schedule(task, time.Second) <= 0`.  The returned ledger is the
actor state after the underlying `Schedule` call. -/
def Allow (quantum : Int) (m : Ledger) (task : String) (now : Int) :
    Bool × Ledger :=
  let r := schedule quantum m task second now
  (decide (r.1 ≤ 0), r.2)

/-- Embedding of `AllowSlice`;
Go: `return l.Schedule(task, slice) <= 0`. -/
def AllowSlice (quantum : Int) (m : Ledger) (task : String) (slice now : Int) :
    Bool × Ledger :=
  let r := schedule quantum m task slice now
  (decide (r.1 ≤ 0), r.2)

/-- Embedding of one sweep tick of `(*limiter).run`, over the map entries in
some iteration order: `i := 0; for k, v := range m { if floor(v,t) != v
{ delete } ; if i >= maxSweep { break }; i++ }`.  Entries after the break are
untouched. -/
def sweep (quantum t : Int) (i : Nat) : List (String × Int) → List (String × Int)
  | [] => []
  | (k, v) :: rest =>
    let rest' := if maxSweep ≤ i then rest else sweep quantum t (i + 1) rest
    if floorT quantum v t ≠ v then rest' else (k, v) :: rest'

/-- The clamp is exactly the max of the mark and `now - quantum`. -/
theorem floorT_eq_max (quantum mark now : Int) :
    floorT quantum mark now = max mark (now - quantum) := by
  unfold floorT
  split
  · exact (max_eq_right (by assumption)).symm
  · exact (max_eq_left (le_of_not_le (by assumption))).symm

/-- The clamp never decreases the mark. -/
theorem le_floorT (quantum mark now : Int) : mark ≤ floorT quantum mark now := by
  rw [floorT_eq_max]; exact le_max_left _ _

/-- The clamp is at least `now - quantum`. -/
theorem sub_le_floorT (quantum mark now : Int) :
    now - quantum ≤ floorT quantum mark now := by
  rw [floorT_eq_max]; exact le_max_right _ _

/-- The delay replied by a `schedule` call, in terms of the clamp. -/
theorem schedule_delay_eq (quantum : Int) (m : Ledger) (k : String) (s now : Int) :
    (schedule quantum m k s now).1
      = floorT quantum ((m k).getD 0) now + s - now := by
  by_cases hc : floorT quantum ((m k).getD 0) now + s - now ≤ 0 <;>
    simp [schedule, hc]

/-- The ledger left by a `schedule` call, in terms of the clamp. -/
theorem schedule_ledger_eq (quantum : Int) (m : Ledger) (k : String) (s now : Int) :
    (schedule quantum m k s now).2
      = if floorT quantum ((m k).getD 0) now + s - now ≤ 0 then
          (fun x => if x = k then
            some (floorT quantum ((m k).getD 0) now + s) else m x)
        else m := by
  by_cases hc : floorT quantum ((m k).getD 0) now + s - now ≤ 0 <;>
    simp [schedule, hc]

/-- C1: `Schedule(k, s)` returns `delay = floor + s - now` with
`floor = max(prior, now - quantum)` (prior defaulting to the clamp floor for a
missing entry), updates the entry for `k` to `floor + s` when `delay ≤ 0`, and
leaves the ledger untouched when `delay > 0`.  The hypothesis makes the
integer time model match wall-clock time, which never lies within one quantum
of the Go zero time. -/
theorem schedule_floor_delay_update (quantum : Int) (m : Ledger) (k : String)
    (s now : Int) (h : m k = none → quantum ≤ now) :
    (schedule quantum m k s now).1
        = max ((m k).getD (now - quantum)) (now - quantum) + s - now ∧
    ((schedule quantum m k s now).1 ≤ 0 →
      (schedule quantum m k s now).2
        = fun x => if x = k then
            some (max ((m k).getD (now - quantum)) (now - quantum) + s)
          else m x) ∧
    (0 < (schedule quantum m k s now).1 → (schedule quantum m k s now).2 = m) := by
  have hf : floorT quantum ((m k).getD 0) now
      = max ((m k).getD (now - quantum)) (now - quantum) := by
    cases hm : m k with
    | none =>
        have h0 : quantum ≤ now := h hm
        rw [floorT_eq_max]
        simp only [Option.getD_none, max_self]
        exact max_eq_right (by omega)
    | some v => simp only [Option.getD_some, floorT_eq_max]
  have h1 := schedule_delay_eq quantum m k s now
  have h2 := schedule_ledger_eq quantum m k s now
  rw [hf] at h1 h2
  refine ⟨h1, ?_, ?_⟩
  · intro hg
    rw [h2, if_pos (by omega)]
  · intro hpos
    rw [h2, if_neg (by omega)]

/-- Witness for C1 at quantum 5, empty ledger, key "a", slice 3, now 20. -/
theorem schedule_floor_delay_update_w :
    (emptyLedger "a" = none → (5 : Int) ≤ 20) ∧
    ((schedule 5 emptyLedger "a" 3 20).1
        = max ((emptyLedger "a").getD (20 - 5)) (20 - 5) + 3 - 20 ∧
     ((schedule 5 emptyLedger "a" 3 20).1 ≤ 0 →
       (schedule 5 emptyLedger "a" 3 20).2
         = fun x => if x = "a" then
             some (max ((emptyLedger "a").getD (20 - 5)) (20 - 5) + 3)
           else emptyLedger x) ∧
     (0 < (schedule 5 emptyLedger "a" 3 20).1 →
       (schedule 5 emptyLedger "a" 3 20).2 = emptyLedger)) :=
  ⟨fun _ => by decide,
   schedule_floor_delay_update 5 emptyLedger "a" 3 20 (fun _ => by decide)⟩

/-- C3: a denied `Schedule` call (positive delay) leaves the ledger exactly as
it was: the entry for the scheduled key and all other keys are unchanged. -/
theorem denied_leaves_ledger_unchanged (quantum : Int) (m : Ledger) (k : String)
    (s now : Int) (hd : 0 < (schedule quantum m k s now).1) :
    (schedule quantum m k s now).2 = m := by
  have h1 := schedule_delay_eq quantum m k s now
  rw [schedule_ledger_eq, if_neg (by omega)]

/-- Witness for C3 at quantum 2, empty ledger, key "a", slice 5, now 10. -/
theorem denied_leaves_ledger_unchanged_w :
    0 < (schedule 2 emptyLedger "a" 5 10).1 ∧
    (schedule 2 emptyLedger "a" 5 10).2 = emptyLedger :=
  ⟨by decide, denied_leaves_ledger_unchanged 2 emptyLedger "a" 5 10 (by decide)⟩

/-- C9: `Allow` is `Schedule(key, 1 second) ≤ 0` and `AllowSlice` is
`Schedule(key, slice) ≤ 0`; both leave exactly the state the underlying
`Schedule` call leaves. -/
theorem allow_iff_schedule_nonpos (quantum : Int) (m : Ledger) (k : String)
    (s now : Int) :
    ((Allow quantum m k now).1 = true ↔ (schedule quantum m k second now).1 ≤ 0) ∧
    (Allow quantum m k now).2 = (schedule quantum m k second now).2 ∧
    ((AllowSlice quantum m k s now).1 = true ↔ (schedule quantum m k s now).1 ≤ 0) ∧
    (AllowSlice quantum m k s now).2 = (schedule quantum m k s now).2 := by
  refine ⟨?_, rfl, ?_, rfl⟩ <;> simp [Allow, AllowSlice]

/-- C10: when a `Schedule` call is granted, the value it stores for the key is
at most `now`: committed-until never lies in the future of its write time. -/
theorem granted_entry_not_future (quantum : Int) (m : Ledger) (k : String)
    (s now : Int) (hg : (schedule quantum m k s now).1 ≤ 0) :
    ∀ w, (schedule quantum m k s now).2 k = some w → w ≤ now := by
  intro w hw
  have h1 := schedule_delay_eq quantum m k s now
  rw [schedule_ledger_eq, if_pos (by omega)] at hw
  simp at hw
  omega

/-- Witness for C10 at quantum 5, empty ledger, key "b", slice 2, now 20. -/
theorem granted_entry_not_future_w :
    (schedule 5 emptyLedger "b" 2 20).1 ≤ 0 ∧
    ∀ w, (schedule 5 emptyLedger "b" 2 20).2 "b" = some w → w ≤ 20 :=
  ⟨by decide, granted_entry_not_future 5 emptyLedger "b" 2 20 (by decide)⟩

/-- C7: distinct keys are independent: scheduling one key never changes
another key's entry, and the delay replied for a key depends only on that
key's own entry (together with the quantum, the slice and the time). -/
theorem keys_independent (quantum : Int) (m mo : Ledger) (k1 k2 : String)
    (s so now nowo : Int) (hne : k1 ≠ k2) :
    (schedule quantum m k1 s now).2 k2 = m k2 ∧
    (m k2 = mo k2 →
      (schedule quantum mo k2 so nowo).1 = (schedule quantum m k2 so nowo).1) := by
  constructor
  · rw [schedule_ledger_eq]
    split
    · simp [Ne.symm hne]
    · rfl
  · intro hk
    rw [schedule_delay_eq, schedule_delay_eq, ← hk]

/-- Witness for C7 with keys "a" and "b" on the empty ledger. -/
theorem keys_independent_w :
    "a" ≠ "b" ∧
    ((schedule 5 emptyLedger "a" 1 10).2 "b" = emptyLedger "b" ∧
     (emptyLedger "b" = emptyLedger "b" →
       (schedule 5 emptyLedger "b" 1 10).1 = (schedule 5 emptyLedger "b" 1 10).1)) :=
  ⟨by decide,
   keys_independent 5 emptyLedger emptyLedger "a" "b" 1 1 10 10 (by decide)⟩

/-- C8: with the ledger entry for a key unchanged, the delays replied by
denied `Schedule` calls with the same slice are non-increasing as the call
time advances. -/
theorem denied_delay_antitone (quantum : Int) (m : Ledger) (k : String)
    (s t1 t2 : Int) (h12 : t1 ≤ t2)
    (hd1 : 0 < (schedule quantum m k s t1).1)
    (hd2 : 0 < (schedule quantum m k s t2).1) :
    (schedule quantum m k s t2).1 ≤ (schedule quantum m k s t1).1 := by
  rw [schedule_delay_eq, floorT_eq_max, schedule_delay_eq, floorT_eq_max]
  omega

/-- Witness for C8: quantum 2, empty ledger, slice 5, times 10 and 11. -/
theorem denied_delay_antitone_w :
    (10 : Int) ≤ 11 ∧
    0 < (schedule 2 emptyLedger "a" 5 10).1 ∧
    0 < (schedule 2 emptyLedger "a" 5 11).1 ∧
    (schedule 2 emptyLedger "a" 5 11).1 ≤ (schedule 2 emptyLedger "a" 5 10).1 :=
  ⟨by decide, by decide, by decide,
   denied_delay_antitone 2 emptyLedger "a" 5 10 11 (by decide) (by decide) (by decide)⟩

/-- A ledger holding a single entry, for concrete scenarios. -/
def ledgerA : Ledger := fun k => if k = "a" then some 95 else none

/-- Counterexample to C4 as stated: with a negative slice the grant at
quantum 10, time 100 rewrites the entry for "a" from 95 down to 92, so the
stored value is not monotone for arbitrary slices. -/
theorem granted_value_monotone_cex :
    ledgerA "a" = some 95 ∧
    (schedule 10 ledgerA "a" (-3) 100).1 ≤ 0 ∧
    (schedule 10 ledgerA "a" (-3) 100).2 "a" = some 92 ∧
    ¬ (95 : Int) ≤ 92 := by
  refine ⟨rfl, by decide, by decide, by decide⟩

/-- C4 (amended: for nonnegative slices): a granted `Schedule` call with
slice `s ≥ 0` on a key that already has an entry `v` stores a value `≥ v`:
committed-until is non-decreasing across granted schedules. -/
theorem granted_value_monotone (quantum : Int) (m : Ledger) (k : String)
    (s now v : Int) (hv : m k = some v) (hs : 0 ≤ s)
    (hg : (schedule quantum m k s now).1 ≤ 0) :
    ∃ w, (schedule quantum m k s now).2 k = some w ∧ v ≤ w := by
  have h1 := schedule_delay_eq quantum m k s now
  rw [schedule_ledger_eq, if_pos (by omega)]
  refine ⟨floorT quantum ((m k).getD 0) now + s, by simp, ?_⟩
  have hv' : (m k).getD 0 = v := by rw [hv]; rfl
  have h2 := le_floorT quantum ((m k).getD 0) now
  omega

/-- Witness for the amended C4: quantum 10, entry 95, slice 2, now 100. -/
theorem granted_value_monotone_w :
    ledgerA "a" = some 95 ∧ (0 : Int) ≤ 2 ∧
    (schedule 10 ledgerA "a" 2 100).1 ≤ 0 ∧
    ∃ w, (schedule 10 ledgerA "a" 2 100).2 "a" = some w ∧ 95 ≤ w :=
  ⟨rfl, by decide, by decide,
   granted_value_monotone 10 ledgerA "a" 2 100 95 rfl (by decide) (by decide)⟩

/-- The ledger after a single grant that consumes the whole quantum:
quantum 10, key "k", slice 10 at time 100 on the empty ledger. -/
def ledgerB : Ledger := (schedule 10 emptyLedger "k" 10 100).2

/-- Counterexample to C5 as stated: after a grant exhausts quantum 10 for
key "k" (so the same-slice call is denied), `Schedule("k", 15)` is denied
with delay 15, yet re-issuing it exactly 15 later is denied again, because
the slice exceeds the quantum. -/
theorem denied_retry_after_delay_cex :
    (schedule 10 emptyLedger "k" 10 100).1 ≤ 0 ∧
    0 < (schedule 10 ledgerB "k" 10 100).1 ∧
    (schedule 10 ledgerB "k" 15 100).1 = 15 ∧
    ¬ (schedule 10 ledgerB "k" 15 (100 + 15)).1 ≤ 0 := by
  refine ⟨by decide, by decide, by decide, by decide⟩

/-- C5 (amended: for slices not exceeding the quantum): if a `Schedule` call
is denied with delay `d` and the entry is untouched meanwhile, re-issuing the
same call exactly `d` later is granted. -/
theorem denied_retry_after_delay (quantum : Int) (m : Ledger) (k : String)
    (s t1 : Int) (hs : s ≤ quantum)
    (hd : 0 < (schedule quantum m k s t1).1) :
    (schedule quantum m k s (t1 + (schedule quantum m k s t1).1)).1 ≤ 0 := by
  rw [schedule_delay_eq] at hd
  rw [schedule_delay_eq, schedule_delay_eq, floorT_eq_max, floorT_eq_max] at *
  omega

/-- Witness for the amended C5: quantum 10, exhausted key "k", slice 5 at
time 100, retried after the returned delay. -/
theorem denied_retry_after_delay_w :
    (5 : Int) ≤ 10 ∧
    0 < (schedule 10 ledgerB "k" 5 100).1 ∧
    (schedule 10 ledgerB "k" 5 (100 + (schedule 10 ledgerB "k" 5 100).1)).1 ≤ 0 :=
  ⟨by decide, by decide,
   denied_retry_after_delay 10 ledgerB "k" 5 100 (by decide) (by decide)⟩

/-- Trajectory of consecutive same-slice calls on one key from the empty
ledger with no time elapsing: after `n ≤ quantum/u` calls the entry holds
`now - quantum + n·u` (and after zero calls there is no entry). -/
theorem scheduleN_entry (quantum u now : Int) (k : String)
    (h0 : 0 < u) (h2 : quantum ≤ now) :
    ∀ n : Nat, (n : Int) ≤ quantum / u →
      scheduleN quantum emptyLedger k u now n k
        = if n = 0 then none else some (now - quantum + (n : Int) * u) := by
  intro n
  induction n with
  | zero => intro _; rfl
  | succ i ih =>
    intro hle
    have hcast : ((i : Int) + 1) ≤ quantum / u := by
      push_cast at hle
      omega
    have hile : (i : Int) ≤ quantum / u := by omega
    have hstate := ih hile
    have hnn : (0 : Int) ≤ (i : Int) * u :=
      mul_nonneg (Int.natCast_nonneg i) (le_of_lt h0)
    have hF : floorT quantum ((scheduleN quantum emptyLedger k u now i k).getD 0) now
        = now - quantum + (i : Int) * u := by
      rw [hstate]
      by_cases hi : i = 0
      · subst hi
        simp [floorT_eq_max]
        omega
      · simp only [if_neg hi, Option.getD_some, floorT_eq_max]
        omega
    have hmul : ((i : Int) + 1) * u ≤ quantum := (Int.le_ediv_iff_mul_le h0).mp hcast
    have hexp : ((i : Int) + 1) * u = (i : Int) * u + u := by ring
    have hc : floorT quantum
        ((scheduleN quantum emptyLedger k u now i k).getD 0) now + u - now ≤ 0 := by
      rw [hF]
      omega
    show (schedule quantum (scheduleN quantum emptyLedger k u now i) k u now).2 k
        = if i + 1 = 0 then none else some (now - quantum + ((i + 1 : Nat) : Int) * u)
    rw [schedule_ledger_eq, if_pos hc]
    simp only [if_pos rfl, Nat.succ_ne_zero, if_neg, ite_false, hF]
    push_cast
    ring_nf

/-- The effective clamp after `i ≤ quantum/u` consecutive calls is
`now - quantum + i·u`, covering both the absent-entry and stored-entry case. -/
theorem scheduleN_floor (quantum u now : Int) (k : String)
    (h0 : 0 < u) (h2 : quantum ≤ now) (i : Nat) (hile : (i : Int) ≤ quantum / u) :
    floorT quantum ((scheduleN quantum emptyLedger k u now i k).getD 0) now
      = now - quantum + (i : Int) * u := by
  have hstate := scheduleN_entry quantum u now k h0 h2 i hile
  have hnn : (0 : Int) ≤ (i : Int) * u :=
    mul_nonneg (Int.natCast_nonneg i) (le_of_lt h0)
  rw [hstate]
  by_cases hi : i = 0
  · subst hi
    simp [floorT_eq_max]
    omega
  · simp only [if_neg hi, Option.getD_some, floorT_eq_max]
    omega

/-- C2: from an empty ledger with a positive unit slice `u ≤ quantum` and no
time elapsing between calls, exactly `⌊quantum/u⌋` consecutive
`Schedule(k, u)` calls are granted, and the next call is denied. -/
theorem quantum_exhaustion_count (quantum u now : Int) (k : String)
    (h0 : 0 < u) (h1 : u ≤ quantum) (h2 : quantum ≤ now) :
    (∀ i : Nat, i < (quantum / u).toNat →
       (schedule quantum (scheduleN quantum emptyLedger k u now i) k u now).1 ≤ 0) ∧
    0 < (schedule quantum
          (scheduleN quantum emptyLedger k u now (quantum / u).toNat) k u now).1 := by
  have hQu : (0 : Int) ≤ quantum / u := Int.ediv_nonneg (by omega) (le_of_lt h0)
  have hNcast : (((quantum / u).toNat : Nat) : Int) = quantum / u :=
    Int.toNat_of_nonneg hQu
  constructor
  · intro i hi
    have hile : (i : Int) ≤ quantum / u := by omega
    have hF := scheduleN_floor quantum u now k h0 h2 i hile
    rw [schedule_delay_eq, hF]
    have hcast : ((i : Int) + 1) ≤ quantum / u := by omega
    have hmul : ((i : Int) + 1) * u ≤ quantum := (Int.le_ediv_iff_mul_le h0).mp hcast
    have hexp : ((i : Int) + 1) * u = (i : Int) * u + u := by ring
    omega
  · have hile : (((quantum / u).toNat : Nat) : Int) ≤ quantum / u := by omega
    have hF := scheduleN_floor quantum u now k h0 h2 (quantum / u).toNat hile
    rw [schedule_delay_eq, hF, hNcast]
    have hlt := Int.lt_ediv_add_one_mul_self quantum h0
    have hexp : (quantum / u + 1) * u = quantum / u * u + u := by ring
    omega

/-- Witness for C2 at quantum 30, unit slice 1, now 30: thirty calls granted,
the thirty-first denied. -/
theorem quantum_exhaustion_count_w :
    (0 : Int) < 1 ∧ (1 : Int) ≤ 30 ∧ (30 : Int) ≤ 30 ∧
    ((∀ i : Nat, i < ((30 : Int) / 1).toNat →
       (schedule 30 (scheduleN 30 emptyLedger "bar" 1 30 i) "bar" 1 30).1 ≤ 0) ∧
     0 < (schedule 30
          (scheduleN 30 emptyLedger "bar" 1 30 ((30 : Int) / 1).toNat) "bar" 1 30).1) :=
  ⟨by decide, by decide, by decide,
   quantum_exhaustion_count 30 1 30 "bar" (by decide) (by decide) (by decide)⟩

/-- A sweep pass started at counter `i ≤ maxSweep` filters the first
`maxSweep + 1 - i` entries, keeping exactly those at or above the window
floor `t - quantum`, and leaves the remaining entries untouched. -/
theorem sweep_eq_aux (quantum t : Int) :
    ∀ (l : List (String × Int)) (i : Nat), i ≤ maxSweep →
      sweep quantum t i l
        = ((l.take (maxSweep + 1 - i)).filter fun p => decide (t - quantum ≤ p.2))
          ++ l.drop (maxSweep + 1 - i) := by
  intro l
  induction l with
  | nil => intro i _; simp [sweep]
  | cons hd tl ih =>
    intro i hi
    obtain ⟨k, v⟩ := hd
    have hkeep : floorT quantum v t = v ↔ t - quantum ≤ v := by
      rw [floorT_eq_max]; omega
    obtain ⟨n, hn⟩ : ∃ n, maxSweep + 1 - i = n + 1 := ⟨maxSweep - i, by omega⟩
    rw [hn, List.take_succ_cons, List.drop_succ_cons, List.filter_cons]
    by_cases hb : maxSweep ≤ i
    · have hn0 : n = 0 := by
        have : maxSweep ≤ i := hb
        omega
      subst hn0
      simp only [sweep, if_pos hb, List.take_zero, List.drop_zero, List.filter_nil]
      by_cases hv : t - quantum ≤ v
      · rw [if_neg (not_not.mpr (hkeep.mpr hv))]
        simp [hv]
      · rw [if_pos (fun he => hv (hkeep.mp he))]
        simp [hv]
    · have ihp := ih (i + 1) (by omega)
      have hn' : maxSweep + 1 - (i + 1) = n := by omega
      rw [hn'] at ihp
      simp only [sweep, if_neg hb, ihp]
      by_cases hv : t - quantum ≤ v
      · rw [if_neg (not_not.mpr (hkeep.mpr hv))]
        simp [hv]
      · rw [if_pos (fun he => hv (hkeep.mp he))]
        simp [hv]

/-- Counterexample to C6 as stated: an examined entry exactly at the window
floor (`v = now - quantum`) is kept, not deleted, because its clamp equals
the stored value; and a tick over eleven stale entries deletes all eleven,
so the sweeper examines `maxSweep + 1` entries, not `maxSweep`. -/
theorem sweep_bounded_eviction_cex :
    sweep 3 5 0 [("a", 2)] = [("a", 2)] ∧ (2 : Int) ≤ 5 - 3 ∧
    sweep 3 5 0 (List.replicate 11 ("b", -100)) = [] ∧
    maxSweep = 10 := by
  refine ⟨by decide, by decide, by decide, rfl⟩

/-- C6 (amended): each sweep tick examines at most `maxSweep + 1` entries —
the suffix beyond them is untouched — and among the examined entries deletes
exactly those strictly below the window floor, `v < now - quantum`; entries
with `v ≥ now - quantum` are kept. -/
theorem sweep_bounded_eviction (quantum t : Int) (l : List (String × Int)) :
    sweep quantum t 0 l
      = ((l.take (maxSweep + 1)).filter fun p => decide (t - quantum ≤ p.2))
        ++ l.drop (maxSweep + 1) := by
  have h := sweep_eq_aux quantum t l 0 (Nat.zero_le _)
  simpa using h

end Rate
